import Mathlib

/-!
Verification of the resilient-rap-framework core against its specification.

The development shallowly embeds the Python sources:
* `src/src/middleware/provenance.py` (`TamperEvidentLog`),
* `src/tests/chaos_engine.py` (`DriftSimulator`),
* `src/modules/translator.py` / `src/modules/enhanced_translator.py`
  (`SemanticTranslator.resolve`, `EnhancedSemanticTranslator.resolve`),
* `src/modules/feedback_manager.py` (`FeedbackManager`).

Floats are embedded as exact rationals (`Rat`), SHA-256 is embedded as an
abstract function on structured payloads (a parameter `h`; collision facts a
theorem needs appear as explicit hypotheses), and Python's global Mersenne
Twister is embedded as an explicit deterministic generator state threaded
through every call, with `random.seed` replacing the whole state.
-/

namespace RapFramework

namespace Provenance

/-- Fields of a ledger record that enter the transaction hash: everything
except `previous_hash`, `metadata` and `transaction_hash`
(provenance.py lines 121-124 and 166-169). -/
structure TxPayload where
  transaction_id : Nat
  timestamp : String
  original_field : String
  original_hash : String
  mapped_field : String
  mapped_hash : String
  confidence : Rat
deriving DecidableEq, Repr

/-- Inputs `_hash_payload` is called on: either the small field-tag dict
built for `original_hash`/`mapped_hash`, or a transaction payload. -/
inductive HashInput where
  | fieldTag (field : String) (ty : String)
  | txBody (p : TxPayload)
deriving DecidableEq, Repr

/-- One persisted ledger record (one JSON line of the provenance chain). -/
structure Transaction where
  transaction_id : Nat
  timestamp : String
  original_field : String
  original_hash : String
  mapped_field : String
  mapped_hash : String
  confidence : Rat
  previous_hash : String
  metadata : List (String × String)
  transaction_hash : String
deriving DecidableEq, Repr, Inhabited

/-- Payload of a stored record, as rebuilt by `verify_chain_integrity`
(record minus previous_hash, transaction_hash, metadata). -/
def txPayload (t : Transaction) : TxPayload :=
  { transaction_id := t.transaction_id
    timestamp := t.timestamp
    original_field := t.original_field
    original_hash := t.original_hash
    mapped_field := t.mapped_field
    mapped_hash := t.mapped_hash
    confidence := t.confidence }

/-- Values appearing in the report dictionaries returned by
`verify_chain_integrity`. -/
inductive RVal where
  | s (v : String)
  | b (v : Bool)
  | i (v : Int)
deriving DecidableEq, Repr

/-- State of a `TamperEvidentLog` object together with its backing file:
`logFile = none` models a missing file, `some txs` the parsed lines. -/
structure TamperEvidentLog where
  logFile : Option (List Transaction)
  current_hash : String
  transaction_count : Nat
deriving DecidableEq, Repr

def genesis : String := "genesis"

/-- Fresh log object whose backing file does not exist yet. -/
def TamperEvidentLog.init : TamperEvidentLog :=
  { logFile := none, current_hash := genesis, transaction_count := 0 }

/-- Caller-supplied arguments of one `log_transaction` call (the timestamp
stands for `datetime.utcnow().isoformat()`). -/
structure TxInput where
  original : String
  mapped : String
  confidence : Rat
  metadata : List (String × String)
  timestamp : String
deriving DecidableEq, Repr

def origTag : String := "original"

def mappedTag : String := "mapped"

/-- Embeds `TamperEvidentLog.log_transaction` (provenance.py lines 76-136):
hash original and mapped, assemble the record with
`previous_hash = current_hash`, hash the record minus
previous_hash/metadata, append, and advance the chain head. -/
def logTransaction (h : HashInput → String) (st : TamperEvidentLog)
    (inp : TxInput) : Transaction × TamperEvidentLog :=
  let oHash := h (HashInput.fieldTag inp.original origTag)
  let mHash := h (HashInput.fieldTag inp.mapped mappedTag)
  let p : TxPayload :=
    { transaction_id := st.transaction_count
      timestamp := inp.timestamp
      original_field := inp.original
      original_hash := oHash
      mapped_field := inp.mapped
      mapped_hash := mHash
      confidence := inp.confidence }
  let tHash := h (HashInput.txBody p)
  let t : Transaction :=
    { transaction_id := st.transaction_count
      timestamp := inp.timestamp
      original_field := inp.original
      original_hash := oHash
      mapped_field := inp.mapped
      mapped_hash := mHash
      confidence := inp.confidence
      previous_hash := st.current_hash
      metadata := inp.metadata
      transaction_hash := tHash }
  (t, { logFile := some (st.logFile.getD [] ++ [t])
        current_hash := tHash
        transaction_count := st.transaction_count + 1 })

/-- Fold of `log_transaction` over a list of calls. -/
def appendAll (h : HashInput → String) (st : TamperEvidentLog) :
    List TxInput → TamperEvidentLog
  | [] => st
  | inp :: rest => appendAll h (logTransaction h st inp).2 rest

/-- Verification loop of `verify_chain_integrity` (lines 156-176): walk the
records, check the stored `previous_hash` against the running value, then
the stored `transaction_hash` against the recomputed one; stop at the first
mismatch. -/
def chainCheck (h : HashInput → String) : String → List Transaction → Bool
  | _, [] => true
  | prev, t :: rest =>
    if t.previous_hash ≠ prev then false
    else if t.transaction_hash ≠ h (HashInput.txBody (txPayload t)) then false
    else chainCheck h t.transaction_hash rest

def keyMessage : String := "message"

def keyValid : String := "valid"

def keyTotal : String := "total_transactions"

def keyVerifiedUpTo : String := "chain_verified_up_to"

def noLogMsg : String := "No log file found"

/-- Embeds `TamperEvidentLog.verify_chain_integrity` (lines 138-184): missing file
returns the message report; otherwise walk the chain and report
`chain_verified_up_to = transaction_count` when valid and `-1` otherwise. -/
def verifyChainIntegrity (h : HashInput → String) (st : TamperEvidentLog) :
    Bool × List (String × RVal) :=
  match st.logFile with
  | none => (true, [(keyMessage, RVal.s noLogMsg), (keyValid, RVal.b true)])
  | some txs =>
    let valid := chainCheck h genesis txs
    (valid,
      [(keyValid, RVal.b valid),
       (keyTotal, RVal.i txs.length),
       (keyVerifiedUpTo,
        RVal.i (if valid then (st.transaction_count : Int) else -1))])

/-- A `verify_chain_integrity` method call with explicit self-state in and
out; the Python method only reads, so the state is returned unchanged. -/
def verifyRun (h : HashInput → String) (st : TamperEvidentLog) :
    (Bool × List (String × RVal)) × TamperEvidentLog :=
  (verifyChainIntegrity h st, st)

/-- Running value of the verification walk after consuming a list of
records: the hash the next record's `previous_hash` must equal. -/
def lastPrev : String → List Transaction → String
  | prev, [] => prev
  | _, t :: rest => lastPrev t.transaction_hash rest

lemma lastPrev_append (prev : String) (xs ys : List Transaction) :
    lastPrev prev (xs ++ ys) = lastPrev (lastPrev prev xs) ys := by
  induction xs generalizing prev with
  | nil => rfl
  | cons t rest ih => simpa [lastPrev] using ih t.transaction_hash

lemma chainCheck_append (h : HashInput → String) (prev : String)
    (xs ys : List Transaction) :
    chainCheck h prev (xs ++ ys) =
      (chainCheck h prev xs && chainCheck h (lastPrev prev xs) ys) := by
  induction xs generalizing prev with
  | nil => simp [chainCheck, lastPrev]
  | cons t rest ih =>
    by_cases h1 : t.previous_hash = prev
    · by_cases h2 : t.transaction_hash = h (HashInput.txBody (txPayload t))
      · simpa [chainCheck, lastPrev, h1, h2] using ih t.transaction_hash
      · simp [chainCheck, lastPrev, h1, h2]
    · simp [chainCheck, lastPrev, h1]

/-- Records held by the backing file (empty when the file is missing). -/
def records (st : TamperEvidentLog) : List Transaction :=
  st.logFile.getD []

/-- Internal consistency of a log state built by honest appends. -/
def LogInv (h : HashInput → String) (st : TamperEvidentLog) : Prop :=
  st.transaction_count = (records st).length ∧
  chainCheck h genesis (records st) = true ∧
  st.current_hash = lastPrev genesis (records st)

lemma logInv_init (h : HashInput → String) : LogInv h TamperEvidentLog.init := by
  refine ⟨rfl, rfl, rfl⟩

lemma logInv_log (h : HashInput → String) (st : TamperEvidentLog)
    (inp : TxInput) (hinv : LogInv h st) :
    LogInv h (logTransaction h st inp).2 := by
  obtain ⟨hc, hchain, hhead⟩ := hinv
  simp only [records] at hc hchain hhead
  refine ⟨?_, ?_, ?_⟩
  · simp [logTransaction, records, hc]
  · simp only [logTransaction, records, Option.getD_some]
    rw [chainCheck_append, hchain]
    simp [chainCheck, txPayload, hhead]
  · simp only [logTransaction, records, Option.getD_some]
    rw [lastPrev_append]
    simp [lastPrev]

lemma logInv_appendAll (h : HashInput → String) (st : TamperEvidentLog)
    (inputs : List TxInput) (hinv : LogInv h st) :
    LogInv h (appendAll h st inputs) := by
  induction inputs generalizing st with
  | nil => exact hinv
  | cons inp rest ih => exact ih _ (logInv_log h st inp hinv)

lemma appendAll_count (h : HashInput → String) (st : TamperEvidentLog)
    (inputs : List TxInput) :
    (appendAll h st inputs).transaction_count =
      st.transaction_count + inputs.length := by
  induction inputs generalizing st with
  | nil => simp [appendAll]
  | cons inp rest ih =>
    simp [appendAll, ih, logTransaction]
    omega

lemma appendAll_records_length (h : HashInput → String)
    (inputs : List TxInput) :
    (records (appendAll h TamperEvidentLog.init inputs)).length =
      inputs.length := by
  obtain ⟨h1, -, -⟩ :=
    logInv_appendAll h TamperEvidentLog.init inputs (logInv_init h)
  have hcount := appendAll_count h TamperEvidentLog.init inputs
  have h0 : TamperEvidentLog.init.transaction_count = 0 := rfl
  omega

lemma appendAll_logFile_some (h : HashInput → String) (st : TamperEvidentLog)
    (inputs : List TxInput) (hne : inputs ≠ []) :
    (appendAll h st inputs).logFile =
      some (records (appendAll h st inputs)) := by
  induction inputs generalizing st with
  | nil => exact absurd rfl hne
  | cons inp rest ih =>
    rcases rest with _ | ⟨inp2, rest2⟩
    · simp [appendAll, logTransaction, records]
    · exact ih _ (by simp)

lemma chainCheck_cons_true (h : HashInput → String) (prev : String)
    (t : Transaction) (rest : List Transaction) :
    chainCheck h prev (t :: rest) = true ↔
      (t.previous_hash = prev ∧
       t.transaction_hash = h (HashInput.txBody (txPayload t)) ∧
       chainCheck h t.transaction_hash rest = true) := by
  by_cases h1 : t.previous_hash = prev
  · by_cases h2 : t.transaction_hash = h (HashInput.txBody (txPayload t))
    · simp [chainCheck, h1, h2]
    · simp [chainCheck, h1, h2]
  · simp [chainCheck, h1]

lemma chainCheck_true_getD (h : HashInput → String) :
    ∀ (txs : List Transaction) (prev : String),
      chainCheck h prev txs = true →
      ∀ k, k < txs.length →
        (txs.getD k default).previous_hash =
          (if k = 0 then prev
           else (txs.getD (k - 1) default).transaction_hash) ∧
        (txs.getD k default).transaction_hash =
          h (HashInput.txBody (txPayload (txs.getD k default)))
  | [], _, _, k, hk => absurd hk (by simp)
  | t :: rest, prev, hck, k, hk => by
    rw [chainCheck_cons_true] at hck
    obtain ⟨h1, h2, h3⟩ := hck
    match k with
    | 0 => simpa using ⟨h1, h2⟩
    | j + 1 =>
      have hj : j < rest.length := by simpa using hk
      have ih := chainCheck_true_getD h rest t.transaction_hash h3 j hj
      match j, ih with
      | 0, ih => simpa using ih
      | i + 1, ih => simpa using ih

/-- Chain tampering model: replace `mapped_field` of record `k` in the
persisted file, re-computing nothing. -/
def setMapped (t : Transaction) (m : String) : Transaction :=
  { t with mapped_field := m }

def tamperMappedField (st : TamperEvidentLog) (k : Nat) (m : String) :
    TamperEvidentLog :=
  match st.logFile with
  | none => st
  | some txs =>
    { st with logFile := some (txs.set k (setMapped (txs.getD k default) m)) }

lemma chainCheck_set_false (h : HashInput → String) (m : String) :
    ∀ (txs : List Transaction) (prev : String) (k : Nat),
      chainCheck h prev txs = true → k < txs.length →
      h (HashInput.txBody (txPayload (setMapped (txs.getD k default) m))) ≠
        (txs.getD k default).transaction_hash →
      chainCheck h prev (txs.set k (setMapped (txs.getD k default) m)) = false
  | [], _, k, _, hk, _ => absurd hk (by simp)
  | t :: rest, prev, k, hck, hk, hm => by
    rw [chainCheck_cons_true] at hck
    obtain ⟨h1, h2, h3⟩ := hck
    match k with
    | 0 =>
      have hm0 :
          h (HashInput.txBody (txPayload (setMapped t m))) ≠
            t.transaction_hash := by simpa using hm
      have hprev : (setMapped t m).previous_hash = prev := by
        simpa [setMapped] using h1
      have hcond : (setMapped t m).transaction_hash ≠
          h (HashInput.txBody (txPayload (setMapped t m))) := by
        have hhash : (setMapped t m).transaction_hash = t.transaction_hash := by
          simp [setMapped]
        rw [hhash]
        intro hEq
        exact hm0 hEq.symm
      simp [chainCheck, hprev, hcond]
    | j + 1 =>
      have hj : j < rest.length := by simpa using hk
      have hm' :
          h (HashInput.txBody (txPayload (setMapped (rest.getD j default) m))) ≠
            (rest.getD j default).transaction_hash := by simpa using hm
      have ih := chainCheck_set_false h m rest t.transaction_hash j h3 hj hm'
      simpa [chainCheck, h1, h2] using ih

/-- C5: appending `n` transactions to a fresh log and verifying yields
`is_valid = true`, `total_transactions = n`, `chain_verified_up_to = n`;
the call returns the log state unchanged (no mutation), so re-running
gives the same result. -/
theorem untampered_chain_verifies (h : HashInput → String)
    (inputs : List TxInput) (hne : inputs ≠ []) :
    verifyRun h (appendAll h TamperEvidentLog.init inputs) =
      ((true,
        [(keyValid, RVal.b true),
         (keyTotal, RVal.i inputs.length),
         (keyVerifiedUpTo, RVal.i inputs.length)]),
       appendAll h TamperEvidentLog.init inputs) := by
  obtain ⟨hc, hchain, -⟩ :=
    logInv_appendAll h TamperEvidentLog.init inputs (logInv_init h)
  have hlen := appendAll_records_length h inputs
  have hsome := appendAll_logFile_some h TamperEvidentLog.init inputs hne
  simp only [verifyRun, verifyChainIntegrity, hsome]
  simp [hchain, hc, hlen]

/-- C2: after any sequence of appends to a fresh log, every stored record
links to its predecessor (`previous_hash` is the prior record's
`transaction_hash`, or the genesis sentinel for record 0) and carries
`transaction_hash = hash of its own payload minus previous_hash, metadata
and transaction_hash`. -/
theorem chain_link_invariant (h : HashInput → String)
    (inputs : List TxInput) (k : Nat) (hk : k < inputs.length) :
    ((records (appendAll h TamperEvidentLog.init inputs)).getD k
        default).previous_hash =
      (if k = 0 then genesis
       else ((records (appendAll h TamperEvidentLog.init inputs)).getD (k - 1)
          default).transaction_hash) ∧
    ((records (appendAll h TamperEvidentLog.init inputs)).getD k
        default).transaction_hash =
      h (HashInput.txBody (txPayload
        ((records (appendAll h TamperEvidentLog.init inputs)).getD k
          default))) := by
  obtain ⟨-, hchain, -⟩ :=
    logInv_appendAll h TamperEvidentLog.init inputs (logInv_init h)
  have hlen := appendAll_records_length h inputs
  exact chainCheck_true_getD h _ genesis hchain k (by omega)

/-- C1 (amended): altering `mapped_field` of record `k` without recomputing
hashes, provided the altered payload hashes differently from the stored
`transaction_hash` (no hash collision), makes `verify_chain_integrity`
return `is_valid = false` with `chain_verified_up_to = -1`. -/
theorem tampered_chain_detected (h : HashInput → String)
    (inputs : List TxInput) (k : Nat) (m : String)
    (hk : k < inputs.length)
    (hm : h (HashInput.txBody (txPayload (setMapped
        ((records (appendAll h TamperEvidentLog.init inputs)).getD k default)
        m))) ≠
      ((records (appendAll h TamperEvidentLog.init inputs)).getD k
        default).transaction_hash) :
    verifyChainIntegrity h
        (tamperMappedField (appendAll h TamperEvidentLog.init inputs) k m) =
      (false,
       [(keyValid, RVal.b false),
        (keyTotal, RVal.i inputs.length),
        (keyVerifiedUpTo, RVal.i (-1))]) := by
  obtain ⟨-, hchain, -⟩ :=
    logInv_appendAll h TamperEvidentLog.init inputs (logInv_init h)
  have hlen := appendAll_records_length h inputs
  have hne : inputs ≠ [] := by
    intro hnil
    rw [hnil] at hk
    exact absurd hk (by simp)
  have hsome := appendAll_logFile_some h TamperEvidentLog.init inputs hne
  have hfalse := chainCheck_set_false h m
    (records (appendAll h TamperEvidentLog.init inputs)) genesis k
    hchain (by omega) hm
  simp only [tamperMappedField, hsome]
  simp only [List.getD_eq_getElem?_getD] at hfalse
  simp [verifyChainIntegrity, hfalse, List.length_set, hlen]

/-- C9 (amended): a missing log file verifies as valid with the
message/valid report (which carries no total_transactions entry); an
existing empty log verifies as valid with `total_transactions = 0` and
`chain_verified_up_to = transaction_count`. Neither case raises. -/
theorem empty_log_vacuously_valid (h : HashInput → String) (ch : String)
    (c : Nat) :
    verifyChainIntegrity h
        { logFile := none, current_hash := ch, transaction_count := c } =
      (true, [(keyMessage, RVal.s noLogMsg), (keyValid, RVal.b true)]) ∧
    verifyChainIntegrity h
        { logFile := some [], current_hash := ch, transaction_count := c } =
      (true,
       [(keyValid, RVal.b true), (keyTotal, RVal.i 0),
        (keyVerifiedUpTo, RVal.i (c : Int))]) := by
  constructor
  · rfl
  · simp [verifyChainIntegrity, chainCheck]

def sep : String := "|"

def fTagMark : String := "F"

def tTagMark : String := "T"

def vEmpty : String := ""

/-- Concrete stand-in for the SHA-256 digest, used to instantiate witnesses:
an injective-by-construction canonical serialization of the hash input
(the source canonicalizes to sorted-key compact JSON before digesting). -/
def hSer : HashInput → String
  | HashInput.fieldTag f ty => String.intercalate sep [fTagMark, f, ty]
  | HashInput.txBody p =>
      String.intercalate sep
        [tTagMark, toString p.transaction_id, p.timestamp, p.original_field,
         p.original_hash, p.mapped_field, p.mapped_hash,
         toString p.confidence.num, toString p.confidence.den]

def wInput1 : TxInput :=
  { original := "hr_watch_01", mapped := "Heart Rate",
    confidence := mkRat 9 10,
    metadata := [], timestamp := "2026-01-01T00:00:00" }

def wInput2 : TxInput :=
  { original := "bp_sys", mapped := "Systolic", confidence := mkRat 4 5,
    metadata := [], timestamp := "2026-01-01T00:00:01" }

def cexInputs : List TxInput := [wInput1, wInput2]

/-- Single-character alteration of `wInput2.mapped` ("Systolic"). -/
def tamperedName : String := "Systolib"

/-- C9 counterexample: on a missing log file the result is valid but the
report dictionary contains no total_transactions key, contrary to the
claimed `total_transactions = 0`. -/
theorem missing_log_report_lacks_total :
    (verifyChainIntegrity hSer TamperEvidentLog.init).1 = true ∧
    List.lookup keyTotal
        (verifyChainIntegrity hSer TamperEvidentLog.init).2 =
      none := by
  constructor
  · rfl
  · rfl

theorem untampered_chain_verifies_witness :
    (cexInputs ≠ []) ∧
    verifyRun hSer (appendAll hSer TamperEvidentLog.init cexInputs) =
      ((true,
        [(keyValid, RVal.b true),
         (keyTotal, RVal.i 2),
         (keyVerifiedUpTo, RVal.i 2)]),
       appendAll hSer TamperEvidentLog.init cexInputs) :=
  ⟨by simp [cexInputs],
   untampered_chain_verifies hSer cexInputs (by simp [cexInputs])⟩

theorem chain_link_invariant_witness :
    (1 < cexInputs.length) ∧
    ((records (appendAll hSer TamperEvidentLog.init cexInputs)).getD 1
        default).previous_hash =
      (if (1 : Nat) = 0 then genesis
       else ((records (appendAll hSer TamperEvidentLog.init cexInputs)).getD
          (1 - 1) default).transaction_hash) ∧
    ((records (appendAll hSer TamperEvidentLog.init cexInputs)).getD 1
        default).transaction_hash =
      hSer (HashInput.txBody (txPayload
        ((records (appendAll hSer TamperEvidentLog.init cexInputs)).getD 1
          default))) :=
  ⟨by simp [cexInputs],
   chain_link_invariant hSer cexInputs 1 (by simp [cexInputs])⟩

theorem tampered_chain_detected_witness :
    ((1 < cexInputs.length) ∧
     hSer (HashInput.txBody (txPayload (setMapped
        ((records (appendAll hSer TamperEvidentLog.init cexInputs)).getD 1
          default) tamperedName))) ≠
       ((records (appendAll hSer TamperEvidentLog.init cexInputs)).getD 1
         default).transaction_hash) ∧
    verifyChainIntegrity hSer
        (tamperMappedField (appendAll hSer TamperEvidentLog.init cexInputs) 1
          tamperedName) =
      (false,
       [(keyValid, RVal.b false),
        (keyTotal, RVal.i 2),
        (keyVerifiedUpTo, RVal.i (-1))]) :=
  ⟨⟨by simp [cexInputs], by decide⟩,
   tampered_chain_detected hSer cexInputs 1 tamperedName
     (by simp [cexInputs]) (by decide)⟩

/-- C1 counterexample: in a 2-record chain with record index 1 tampered
(single character of mapped_field changed), the code reports
`chain_verified_up_to = -1`, while the claim demands `k - 1 = 0`. -/
theorem tamper_not_localized_cex :
    verifyChainIntegrity hSer
        (tamperMappedField (appendAll hSer TamperEvidentLog.init cexInputs) 1
          tamperedName) =
      (false,
       [(keyValid, RVal.b false),
        (keyTotal, RVal.i 2),
        (keyVerifiedUpTo, RVal.i (-1))]) ∧
    ((-1 : Int) ≠ 1 - 1) := by
  constructor
  · decide
  · decide

end Provenance

namespace Chaos

/-- Entropy injection types (chaos_engine.py lines 32-36). -/
inductive EntropyType where
  | synonyms
  | noise
  | truncation
deriving DecidableEq, Repr, Inhabited

/-- State of the process-global `random` generator. The source relies on
CPython's Mersenne Twister; it is embedded as an abstract deterministic
generator: an explicit state threaded through every drawing call. -/
structure RandState where
  s : Nat
deriving DecidableEq, Repr

/-- One raw draw from the generator (a linear congruential step standing in
for the Mersenne Twister; all proofs hold for any deterministic step). -/
def randNext (g : RandState) : Nat × RandState :=
  let s1 := (g.s * 6364136223846793005 + 1442695040888963407) % (2 ^ 64)
  (s1 / 2 ^ 16 % 2 ^ 32, { s := s1 })

/-- Embeds `random.seed(seed)` (chaos_engine.py line 84): the new global state is a
function of the seed alone; whatever state was there before is discarded. -/
def seedState (seed : Nat) : RandState :=
  { s := (seed * 2654435761 + 1013904223) % (2 ^ 64) }

def randBelow (n : Nat) (g : RandState) : Nat × RandState :=
  let vg := randNext g
  (vg.1 % n, vg.2)

/-- Embeds `random.random()`: a rational in `[0, 1)`. -/
def pyRandomUnit (g : RandState) : Rat × RandState :=
  let vg := randNext g
  (mkRat (vg.1 % 2 ^ 32) (2 ^ 32), vg.2)

/-- Embeds `random.choice(l)`: uniform pick; `d` is returned only for the empty
list, on which the source raises. -/
def pyChoice (l : List α) (d : α) (g : RandState) : α × RandState :=
  let ig := randBelow l.length g
  (l.getD ig.1 d, ig.2)

/-- Embeds `random.randint(a, b)`: inclusive on both ends. -/
def randint (a b : Nat) (g : RandState) : Nat × RandState :=
  let vg := randNext g
  (a + vg.1 % (b + 1 - a), vg.2)

/-- Embeds `random.sample(pool, k)`: `k` draws without replacement, modelled as
repeated pick-and-remove. -/
def sampleAux : Nat → List Nat → RandState → List Nat × RandState
  | 0, _, g => ([], g)
  | k + 1, pool, g =>
    if pool = [] then ([], g)
    else
      let ig := randBelow pool.length g
      let rg := sampleAux k (pool.eraseIdx ig.1) ig.2
      (pool.getD ig.1 0 :: rg.1, rg.2)

def emptyStr : String := ""

/-- Embeds `SYNONYM_DICT` (chaos_engine.py lines 61-71), in insertion order. -/
def SYNONYM_DICT : List (String × List String) :=
  [("speed", ["velocity", "rate", "pace", "rpm"]),
   ("heart_rate", ["hr", "pulse", "bpm", "cardiac_rate"]),
   ("systolic", ["sys", "sbp", "upper"]),
   ("diastolic", ["dia", "dbp", "lower"]),
   ("oxygen", ["spo2", "o2_sat", "sp02"]),
   ("temperature", ["temp", "celsius", "degrees"]),
   ("pressure", ["psi", "mmhg", "bar"]),
   ("count", ["total", "sum", "quantity"]),
   ("value", ["reading", "measurement", "data"])]

def NOISE_SUFFIXES : List String :=
  ["_v1", "_v2", "_log", "_new", "_old", "_backup", "_raw", "_processed"]

def NOISE_PREFIX_LIST : List String :=
  ["x_", "tmp_", "old_", "new_", "ref_", "aux_"]

/-- Python substring test `a in b`. -/
def substrB (a b : String) : Bool :=
  decide (a.data <:+: b.data)

/-- Embeds `DriftSimulator.inject_synonyms` (lines 86-104): first dictionary key
that is a substring of, or contains, the lowercased name selects a uniform
synonym; otherwise the name is returned unchanged. -/
def inject_synonyms (clean : String) (g : RandState) : String × RandState :=
  match SYNONYM_DICT.find?
      (fun kv => substrB kv.1 clean.toLower || substrB clean.toLower kv.1) with
  | some kv => pyChoice kv.2 clean g
  | none => (clean, g)

/-- Embeds `DriftSimulator.inject_noise` (lines 106-125): with probability 0.5
append a random suffix, else prepend a random prefix. -/
def inject_noise (clean : String) (g : RandState) : String × RandState :=
  let ug := pyRandomUnit g
  if ug.1 < mkRat 1 2 then
    let sg := pyChoice NOISE_SUFFIXES emptyStr ug.2
    (clean ++ sg.1, sg.2)
  else
    let pg := pyChoice NOISE_PREFIX_LIST emptyStr ug.2
    (pg.1 ++ clean, pg.2)

/-- Characters of `l` whose index is not in `ps`, in original order
(the comprehension at chaos_engine.py lines 149-151). -/
def removeAtPositions (l : List Char) (ps : List Nat) : List Char :=
  List.map Prod.snd (List.filter (fun ic => decide (ic.1 ∉ ps)) l.enum)

def natLeB (a b : Nat) : Bool := decide (a ≤ b)

/-- Embeds `DriftSimulator.inject_truncation` (lines 127-152): names of length at
most 3 pass through; otherwise remove `randint(1, min(3, len - 2))`
uniformly sampled positions. -/
def inject_truncation (clean : String) (g : RandState) : String × RandState :=
  if clean.length ≤ 3 then (clean, g)
  else
    let kg := randint 1 (min 3 (clean.length - 2)) g
    let pg := sampleAux kg.1 (List.range clean.length) kg.2
    (String.mk (removeAtPositions clean.data (pg.1.mergeSort natLeB)), pg.2)

/-- Entropy distribution over the three fixed keys, in the insertion order
of the source's dict literal. -/
structure EntropyDist where
  synonyms : Rat
  noise : Rat
  truncation : Rat
deriving DecidableEq, Repr

def EntropyDist.total (d : EntropyDist) : Rat :=
  d.synonyms + d.noise + d.truncation

/-- Default weights 0.4 / 0.35 / 0.25 (lines 54-58). -/
def defaultEntropyDist : EntropyDist :=
  { synonyms := mkRat 2 5, noise := mkRat 7 20, truncation := mkRat 1 4 }

/-- Embeds `DriftSimulator` state (constant class-level dicts are the defs above). -/
structure DriftSimulator where
  clean_names : List String
  seed : Nat
  entropy_distribution : EntropyDist
deriving DecidableEq, Repr

/-- Embeds `random.choices(types, weights, k=1)[0]` over the distribution dict in
key insertion order: one uniform draw against cumulative weights. -/
def selectType (d : EntropyDist) (g : RandState) : EntropyType × RandState :=
  let ug := pyRandomUnit g
  let r := ug.1 * d.total
  (if r < d.synonyms then EntropyType.synonyms
   else if r < d.synonyms + d.noise then EntropyType.noise
   else EntropyType.truncation, ug.2)

/-- One iteration of the `stream_chaos` loop (lines 172-191). -/
def chaosStep (sim : DriftSimulator) (etype : Option EntropyType)
    (g : RandState) : (String × String × EntropyType) × RandState :=
  let cg := pyChoice sim.clean_names emptyStr g
  let tg :=
    match etype with
    | none => selectType sim.entropy_distribution cg.2
    | some t => (t, cg.2)
  match tg.1 with
  | EntropyType.synonyms =>
    let rg := inject_synonyms cg.1 tg.2
    ((cg.1, rg.1, EntropyType.synonyms), rg.2)
  | EntropyType.noise =>
    let rg := inject_noise cg.1 tg.2
    ((cg.1, rg.1, EntropyType.noise), rg.2)
  | EntropyType.truncation =>
    let rg := inject_truncation cg.1 tg.2
    ((cg.1, rg.1, EntropyType.truncation), rg.2)

/-- Embeds `DriftSimulator.stream_chaos` (lines 154-191), fully evaluated. -/
def streamChaos (sim : DriftSimulator) (numSamples : Nat)
    (etype : Option EntropyType) (g : RandState) :
    List (String × String × EntropyType) × RandState :=
  match numSamples with
  | 0 => ([], g)
  | n + 1 =>
    let xg := chaosStep sim etype g
    let rest := streamChaos sim n etype xg.2
    (xg.1 :: rest.1, rest.2)

/-- Embeds `DriftSimulator.__post_init__` (lines 82-84): seed the global
generator from `self.seed`, discarding the prior global state. -/
def postInit (sim : DriftSimulator) (g : RandState) : RandState :=
  seedState sim.seed

/-- One full experiment run: construct an injector (which seeds the global
generator) over a prior global state `g`, then stream `numSamples`. -/
def runFromConstruction (names : List String) (dist : EntropyDist)
    (seed : Nat) (numSamples : Nat) (etype : Option EntropyType)
    (g : RandState) : List (String × String × EntropyType) :=
  (streamChaos { clean_names := names, seed := seed,
                 entropy_distribution := dist } numSamples etype
    (postInit { clean_names := names, seed := seed,
                entropy_distribution := dist } g)).1

/-- Embeds `DriftSimulator.calibrate_entropy` (lines 193-218): scale every weight
by `1 - target_accuracy`, then normalize by the scaled sum; the result is
both returned and installed on the simulator. -/
def calibrateEntropy (sim : DriftSimulator) (target : Rat) :
    DriftSimulator × EntropyDist :=
  let scale := 1 - target
  let nd : EntropyDist :=
    { synonyms := sim.entropy_distribution.synonyms * scale
      noise := sim.entropy_distribution.noise * scale
      truncation := sim.entropy_distribution.truncation * scale }
  let final : EntropyDist :=
    { synonyms := nd.synonyms / nd.total
      noise := nd.noise / nd.total
      truncation := nd.truncation / nd.total }
  ({ sim with entropy_distribution := final }, final)

/-- C3: the chaos stream is a function of (schema, seed, num_samples,
distribution) alone: whatever the global generator state was before the
injector is constructed (`g1` versus `g2`), constructing with the given
seed and streaming yields the identical sequence of
(clean, corrupted, entropy_type) samples, so two independent runs agree. -/
theorem stream_chaos_deterministic (names : List String)
    (dist : EntropyDist) (seed : Nat) (numSamples : Nat)
    (etype : Option EntropyType) (g1 g2 : RandState) :
    runFromConstruction names dist seed numSamples etype g1 =
      runFromConstruction names dist seed numSamples etype g2 := rfl

lemma calibrate_component (a t total : Rat) (ht : t ≠ 0) :
    a * t / (total * t) = a / total := by
  rw [mul_comm total t, ← div_div, mul_div_assoc, div_self ht, mul_one]

/-- C10: for a distribution of positive total weight and any
target_accuracy < 1, `calibrate_entropy` returns, and installs, the input
distribution divided by its own sum; the target cancels, and a
distribution already summing to 1 is returned unchanged. -/
theorem calibrate_entropy_normalizes (sim : DriftSimulator) (target : Rat)
    (hpos : 0 < sim.entropy_distribution.total) (ht : target < 1) :
    (calibrateEntropy sim target).2 =
      { synonyms :=
          sim.entropy_distribution.synonyms / sim.entropy_distribution.total
        noise :=
          sim.entropy_distribution.noise / sim.entropy_distribution.total
        truncation :=
          sim.entropy_distribution.truncation /
            sim.entropy_distribution.total } ∧
    (calibrateEntropy sim target).1.entropy_distribution =
      (calibrateEntropy sim target).2 ∧
    (sim.entropy_distribution.total = 1 →
      (calibrateEntropy sim target).2 = sim.entropy_distribution) := by
  have hs : (1 : Rat) - target ≠ 0 := by
    have h0 : (0 : Rat) < 1 - target := by linarith
    exact ne_of_gt h0
  have hsum :
      sim.entropy_distribution.synonyms * (1 - target) +
        sim.entropy_distribution.noise * (1 - target) +
        sim.entropy_distribution.truncation * (1 - target) =
      sim.entropy_distribution.total * (1 - target) := by
    simp only [EntropyDist.total]
    ring
  have hmain : (calibrateEntropy sim target).2 =
      { synonyms :=
          sim.entropy_distribution.synonyms / sim.entropy_distribution.total
        noise :=
          sim.entropy_distribution.noise / sim.entropy_distribution.total
        truncation :=
          sim.entropy_distribution.truncation /
            sim.entropy_distribution.total } := by
    simp only [calibrateEntropy, EntropyDist.total, EntropyDist.mk.injEq]
    simp only [EntropyDist.total] at hsum
    rw [hsum]
    exact ⟨calibrate_component _ _ _ hs, calibrate_component _ _ _ hs,
      calibrate_component _ _ _ hs⟩
  refine ⟨hmain, rfl, ?_⟩
  intro h1
  rw [hmain, h1]
  simp only [div_one]

def wSim : DriftSimulator :=
  { clean_names := [], seed := 42,
    entropy_distribution := { synonyms := 1, noise := 0, truncation := 0 } }

theorem calibrate_entropy_normalizes_witness :
    ((0 : Rat) < wSim.entropy_distribution.total ∧ (0 : Rat) < 1) ∧
    (calibrateEntropy wSim 0).2 =
      { synonyms :=
          wSim.entropy_distribution.synonyms / wSim.entropy_distribution.total
        noise :=
          wSim.entropy_distribution.noise / wSim.entropy_distribution.total
        truncation :=
          wSim.entropy_distribution.truncation /
            wSim.entropy_distribution.total } :=
  ⟨⟨by norm_num [wSim, EntropyDist.total], zero_lt_one⟩,
   (calibrate_entropy_normalizes wSim 0
     (by norm_num [wSim, EntropyDist.total]) zero_lt_one).1⟩

lemma sampleAux_subset :
    ∀ (k : Nat) (pool : List Nat) (g : RandState) (x : Nat),
      x ∈ (sampleAux k pool g).1 → x ∈ pool
  | 0, _, _, _, hx => by simp [sampleAux] at hx
  | k + 1, pool, g, x, hx => by
    by_cases hp : pool = []
    · simp [sampleAux, hp] at hx
    · have hlen : 0 < pool.length := List.length_pos.mpr hp
      have hidx : (randBelow pool.length g).1 < pool.length := by
        simp only [randBelow]
        exact Nat.mod_lt _ hlen
      simp only [sampleAux, hp, if_false, List.mem_cons] at hx
      rcases hx with hx | hx
      · rw [hx, List.getD_eq_getElem?_getD, List.getElem?_eq_getElem hidx]
        exact List.getElem_mem hidx
      · exact (List.eraseIdx_sublist pool _).subset
          (sampleAux_subset k _ _ x hx)

lemma sampleAux_length_le :
    ∀ (k : Nat) (pool : List Nat) (g : RandState),
      (sampleAux k pool g).1.length ≤ k
  | 0, _, _ => by simp [sampleAux]
  | k + 1, pool, g => by
    by_cases hp : pool = []
    · simp [sampleAux, hp]
    · simp only [sampleAux, hp, if_false, List.length_cons]
      exact Nat.succ_le_succ (sampleAux_length_le k _ _)

lemma sampleAux_ne_nil (k : Nat) (pool : List Nat) (g : RandState)
    (hp : pool ≠ []) (hk : 0 < k) : (sampleAux k pool g).1 ≠ [] := by
  match k with
  | 0 => exact absurd hk (by simp)
  | k + 1 => simp [sampleAux, hp]

lemma length_filter_bool_compl {α : Type} (f : α → Bool) (l : List α) :
    (l.filter f).length + (l.filter fun a => !(f a)).length = l.length := by
  induction l with
  | nil => rfl
  | cons a rest ih =>
    cases hfa : f a <;> simp [List.filter_cons, hfa] <;> omega

lemma length_filter_decide_compl {α : Type} (P : α → Prop) [DecidablePred P]
    (l : List α) :
    (l.filter fun a => decide (P a)).length +
      (l.filter fun a => decide (¬ P a)).length = l.length := by
  have hcong : (l.filter fun a => decide (¬ P a)) =
      (l.filter fun a => !(decide (P a))) := by
    apply List.filter_congr
    intro a _
    exact decide_not
  rw [hcong]
  exact length_filter_bool_compl _ l

/-- Indices of `l` that the removal hits. -/
def removedIdx (l : List Char) (ps : List Nat) : List (Nat × Char) :=
  List.filter (fun ic => decide (ic.1 ∈ ps)) l.enum

lemma removeAtPositions_sublist (l : List Char) (ps : List Nat) :
    (removeAtPositions l ps).Sublist l := by
  have h1 : (List.filter (fun ic => decide (ic.1 ∉ ps)) l.enum).Sublist
      l.enum := List.filter_sublist _
  have h2 := h1.map Prod.snd
  rwa [List.enum_map_snd] at h2

lemma removeAtPositions_length (l : List Char) (ps : List Nat) :
    (removeAtPositions l ps).length + (removedIdx l ps).length = l.length := by
  have h := length_filter_decide_compl (fun ic : Nat × Char => ic.1 ∈ ps)
    l.enum
  simp only [removeAtPositions, removedIdx, List.length_map]
  rw [List.enum_length] at h
  omega

lemma removedIdx_length_le (l : List Char) (ps : List Nat) :
    (removedIdx l ps).length ≤ ps.length := by
  have hsub : ((removedIdx l ps).map Prod.fst).Sublist (List.range l.length) := by
    have h1 : (removedIdx l ps).Sublist l.enum := List.filter_sublist _
    have h2 := h1.map Prod.fst
    rwa [List.enum_map_fst] at h2
  have hnodup : ((removedIdx l ps).map Prod.fst).Nodup :=
    hsub.nodup (List.nodup_range _)
  have hsubset : ((removedIdx l ps).map Prod.fst) ⊆ ps := by
    intro a ha
    obtain ⟨ic, hic, hfst⟩ := List.mem_map.mp ha
    have := List.mem_filter.mp hic
    rw [← hfst]
    simpa using this.2
  have := (hnodup.subperm hsubset).length_le
  simpa using this

lemma removedIdx_pos (l : List Char) (ps : List Nat) (i : Nat)
    (hips : i ∈ ps) (hilen : i < l.length) :
    0 < (removedIdx l ps).length := by
  have hmem : i ∈ List.map Prod.fst l.enum := by
    rw [List.enum_map_fst]
    exact List.mem_range.mpr hilen
  obtain ⟨ic, hic, hfst⟩ := List.mem_map.mp hmem
  have hfil : ic ∈ removedIdx l ps := by
    refine List.mem_filter.mpr ⟨hic, ?_⟩
    simp [hfst, hips]
  exact List.length_pos_of_mem hfil

/-- C7: truncation returns inputs of length at most 3 unchanged; longer
inputs lose between 1 and 3 characters, the remainder is an
order-preserving subsequence of the input, strictly shorter, never empty. -/
theorem truncation_floor (clean : String) (g : RandState) :
    (clean.length ≤ 3 → (inject_truncation clean g).1 = clean) ∧
    (3 < clean.length →
      ((inject_truncation clean g).1.data.Sublist clean.data ∧
       (inject_truncation clean g).1.length < clean.length ∧
       clean.length - (inject_truncation clean g).1.length ≤ 3 ∧
       (inject_truncation clean g).1.data ≠ [])) := by
  constructor
  · intro hle
    simp [inject_truncation, hle]
  · intro hgt
    have hle : ¬ clean.length ≤ 3 := by omega
    simp only [inject_truncation, hle, if_false]
    set k := (randint 1 (min 3 (clean.length - 2)) g).1 with hkdef
    set g1 := (randint 1 (min 3 (clean.length - 2)) g).2
    set pos0 := (sampleAux k (List.range clean.length) g1).1 with hpos0
    set ps := pos0.mergeSort natLeB with hps
    have hperm : ps.Perm pos0 := List.mergeSort_perm pos0 natLeB
    have hk1 : 1 ≤ k := by
      rw [hkdef]
      simp only [randint]
      exact Nat.le_add_right 1 _
    have hbound : min 3 (clean.length - 2) + 1 - 1 > 0 := by omega
    have hk3 : k ≤ min 3 (clean.length - 2) := by
      rw [hkdef]
      simp only [randint]
      have := Nat.mod_lt (randNext g).1 hbound
      omega
    have hdata : clean.length = clean.data.length := rfl
    have hps_sub : ∀ x ∈ ps, x < clean.data.length := by
      intro x hx
      have hx0 : x ∈ pos0 := hperm.mem_iff.mp hx
      have := sampleAux_subset k (List.range clean.length) g1 x hx0
      rw [← hdata]
      exact List.mem_range.mp this
    have hps_len : ps.length ≤ k := by
      rw [hperm.length_eq]
      exact sampleAux_length_le k _ _
    have hps_ne : ps ≠ [] := by
      intro hnil
      have hpos0nil : pos0 = [] := by
        have hp2 : List.Perm ([] : List Nat) pos0 := hnil ▸ hperm
        exact hp2.symm.eq_nil
      have hrange : List.range clean.length ≠ [] := by
        simp only [ne_eq, List.range_eq_nil]
        omega
      exact sampleAux_ne_nil k (List.range clean.length) g1 hrange
        (by omega) hpos0nil
    have hlen_eq := removeAtPositions_length clean.data ps
    have hrem_le_ps := removedIdx_length_le clean.data ps
    have hrem_le : (removedIdx clean.data ps).length ≤ 3 := by omega
    have hrem_pos : 0 < (removedIdx clean.data ps).length := by
      obtain ⟨i, hi⟩ := List.exists_mem_of_ne_nil ps hps_ne
      exact removedIdx_pos clean.data ps i hi (hps_sub i hi)
    refine ⟨removeAtPositions_sublist clean.data ps, ?_, ?_, ?_⟩
    · show (String.mk (removeAtPositions clean.data ps)).length < clean.length
      rw [hdata]
      show (removeAtPositions clean.data ps).length < clean.data.length
      omega
    · show clean.length - (String.mk (removeAtPositions clean.data ps)).length ≤ 3
      rw [hdata]
      show clean.data.length - (removeAtPositions clean.data ps).length ≤ 3
      omega
    · show removeAtPositions clean.data ps ≠ []
      have hk2 : k ≤ clean.length - 2 := by omega
      have hlen_pos : 0 < (removeAtPositions clean.data ps).length := by
        omega
      exact List.ne_nil_of_length_pos hlen_pos

def wShort : String := "abc"

def wLong : String := "heart_rate"

theorem truncation_floor_witness :
    (wShort.length ≤ 3 ∧
     (inject_truncation wShort (seedState 7)).1 = wShort) ∧
    (3 < wLong.length ∧
     (inject_truncation wLong (seedState 42)).1.length < wLong.length) :=
  ⟨⟨by decide, (truncation_floor wShort (seedState 7)).1 (by decide)⟩,
   ⟨by decide, ((truncation_floor wLong (seedState 42)).2 (by decide)).2.1⟩⟩

end Chaos

namespace Translator

/-- Embeds `torch.argmax` over a score list together with the looked-up score
(`best_match_idx` and `confidence` in translator.py lines 28-29): index of
the first maximal element, paired with that maximal value. -/
def argmaxAux (bi : Nat) (bv : Rat) (i : Nat) : List Rat → Nat × Rat
  | [] => (bi, bv)
  | x :: xs => if bv < x then argmaxAux i x (i + 1) xs
               else argmaxAux bi bv (i + 1) xs

def argmaxPair : List Rat → Nat × Rat
  | [] => (0, 0)
  | x :: xs => argmaxAux 0 x 1 xs

lemma argmaxAux_mem (xs : List Rat) :
    ∀ (bi : Nat) (bv : Rat) (i : Nat),
      (argmaxAux bi bv i xs).2 = bv ∨ (argmaxAux bi bv i xs).2 ∈ xs := by
  induction xs with
  | nil => intro bi bv i; exact Or.inl rfl
  | cons x xs ih =>
    intro bi bv i
    by_cases hlt : bv < x
    · simp only [argmaxAux, hlt, if_true]
      rcases ih i x (i + 1) with h | h
      · exact Or.inr (by simp [h])
      · exact Or.inr (List.mem_cons_of_mem _ h)
    · simp only [argmaxAux, hlt, if_false]
      rcases ih bi bv (i + 1) with h | h
      · exact Or.inl h
      · exact Or.inr (List.mem_cons_of_mem _ h)

lemma argmaxPair_mem (l : List Rat) (hne : l ≠ []) :
    (argmaxPair l).2 ∈ l := by
  match l, hne with
  | x :: xs, _ =>
    rcases argmaxAux_mem xs 0 x 1 with h | h
    · simp [argmaxPair, h]
    · exact List.mem_cons_of_mem _ (by simpa [argmaxPair] using h)

/-- The similarity oracle: cosine similarity of the sentence-transformer
embeddings, consumed as an opaque score function. -/
def oracleScores (sim : String → String → Rat) (messy : String)
    (cands : List String) : List Rat :=
  cands.map (fun c => sim messy c)

/-- Embeds `SemanticTranslator.resolve` (translator.py lines 17-33): best oracle
match against the standard schema, accepted iff `confidence >= threshold`. -/
def baseResolve (sim : String → String → Rat) (schema : List String)
    (messy : String) (threshold : Rat) : Option String × Rat :=
  let scores := oracleScores sim messy schema
  let best := argmaxPair scores
  if threshold ≤ best.2 then (some (schema.getD best.1 Chaos.emptyStr), best.2)
  else (none, best.2)

/-- Embeds `EnhancedSemanticTranslator._fuzzy_match_learned_mapping`
(enhanced_translator.py lines 102-133): best oracle match against the
learned-mapping keys, returned iff its score exceeds 0.7. -/
def fuzzyMatchLearned (sim : String → String → Rat)
    (mappings : List (String × String)) (messy : String) :
    Option (String × Rat) :=
  if mappings.isEmpty then none
  else if mkRat 7 10 <
      (argmaxPair (oracleScores sim messy (mappings.map Prod.fst))).2 then
    some ((mappings.lookup ((mappings.map Prod.fst).getD
        (argmaxPair (oracleScores sim messy (mappings.map Prod.fst))).1
        Chaos.emptyStr)).getD Chaos.emptyStr,
      (argmaxPair (oracleScores sim messy (mappings.map Prod.fst))).2)
  else none

lemma fuzzyMatchLearned_score_mem (sim : String → String → Rat)
    (mappings : List (String × String)) (messy : String) (vc : String × Rat)
    (hf : fuzzyMatchLearned sim mappings messy = some vc) :
    vc.2 ∈ oracleScores sim messy (mappings.map Prod.fst) := by
  by_cases hemp : mappings.isEmpty
  · simp [fuzzyMatchLearned, hemp] at hf
  · by_cases hgt : mkRat 7 10 <
        (argmaxPair (oracleScores sim messy (mappings.map Prod.fst))).2
    · simp only [fuzzyMatchLearned] at hf
      rw [if_neg hemp, if_pos hgt] at hf
      have hpair := Option.some.inj hf
      have hne : oracleScores sim messy (mappings.map Prod.fst) ≠ [] := by
        simp only [oracleScores, ne_eq, List.map_eq_nil_iff,
          List.map_eq_nil_iff]
        simpa [List.isEmpty_iff] using hemp
      have hmem := argmaxPair_mem _ hne
      rw [← hpair]
      exact hmem
    · simp only [fuzzyMatchLearned] at hf
      rw [if_neg hemp, if_neg hgt] at hf
      exact absurd hf (by simp)

/-- Embeds `EnhancedSemanticTranslator.resolve` (enhanced_translator.py lines
57-100): exact learned mapping, then fuzzy learned mapping, then the base
oracle resolution. -/
def enhancedResolve (sim : String → String → Rat)
    (mappings : List (String × String)) (schema : List String)
    (messy : String) (threshold : Rat) : Option String × Rat :=
  match mappings.lookup messy with
  | some v => (some v, 1)
  | none =>
    match fuzzyMatchLearned sim mappings messy with
    | some vc => (some vc.1, vc.2)
    | none => baseResolve sim schema messy threshold

lemma oracleScores_mem_bounds (sim : String → String → Rat)
    (hb : ∀ a b, 0 ≤ sim a b ∧ sim a b ≤ 1) (messy : String)
    (cands : List String) (x : Rat)
    (hx : x ∈ oracleScores sim messy cands) : 0 ≤ x ∧ x ≤ 1 := by
  obtain ⟨c, -, hcx⟩ := List.mem_map.mp hx
  rw [← hcx]
  exact hb messy c

/-- C4: assuming oracle scores in [0, 1], every resolution confidence lies
in [0, 1]; and an input that is a literal key of the learned-mapping cache
resolves to exactly (mapping[input], 1.0), bypassing fuzzy and oracle. -/
theorem resolve_confidence_bounds (sim : String → String → Rat)
    (mappings : List (String × String)) (schema : List String)
    (messy : String) (threshold : Rat)
    (hb : ∀ a b, 0 ≤ sim a b ∧ sim a b ≤ 1) (hschema : schema ≠ []) :
    (0 ≤ (enhancedResolve sim mappings schema messy threshold).2 ∧
     (enhancedResolve sim mappings schema messy threshold).2 ≤ 1) ∧
    (∀ v, mappings.lookup messy = some v →
      enhancedResolve sim mappings schema messy threshold = (some v, 1)) := by
  constructor
  · match hm : mappings.lookup messy with
    | some v => simp [enhancedResolve, hm]
    | none =>
      match hf : fuzzyMatchLearned sim mappings messy with
      | some vc =>
        have hc := fuzzyMatchLearned_score_mem sim mappings messy vc hf
        have := oracleScores_mem_bounds sim hb messy _ _ hc
        simpa [enhancedResolve, hm, hf] using this
      | none =>
        have hne : oracleScores sim messy schema ≠ [] := by
          simp only [oracleScores, ne_eq, List.map_eq_nil_iff]
          exact hschema
        have hmem := argmaxPair_mem _ hne
        have hbd := oracleScores_mem_bounds sim hb messy _ _ hmem
        by_cases hth : threshold ≤ (argmaxPair (oracleScores sim messy schema)).2
        · simpa [enhancedResolve, hm, hf, baseResolve, hth] using hbd
        · simpa [enhancedResolve, hm, hf, baseResolve, hth] using hbd
  · intro v hv
    simp [enhancedResolve, hv]

/-- Oracle used to instantiate the witness: exact string identity scores. -/
def simId (a b : String) : Rat := if a = b then 1 else 0

lemma simId_bounds : ∀ a b, 0 ≤ simId a b ∧ simId a b ≤ 1 := by
  intro a b
  by_cases h : a = b <;> simp [simId, h]

def wMappings : List (String × String) :=
  [("hr_watch_01", "Heart Rate (bpm)")]

def wSchema : List String := ["Heart Rate (bpm)", "Systolic (mmHg)"]

def wMessy : String := "hr_watch_01"

def wHeartRate : String := "Heart Rate (bpm)"

theorem resolve_confidence_bounds_witness :
    ((∀ a b, 0 ≤ simId a b ∧ simId a b ≤ 1) ∧ wSchema ≠ []) ∧
    enhancedResolve simId wMappings wSchema wMessy (mkRat 9 20) =
      (some (wHeartRate), 1) :=
  ⟨⟨simId_bounds, by simp [wSchema]⟩,
   (resolve_confidence_bounds simId wMappings wSchema wMessy (mkRat 9 20)
       simId_bounds (by simp [wSchema])).2 wHeartRate (by decide)⟩

end Translator

namespace Feedback

def approvedType : String := "approved"

def correctedType : String := "corrected"

def rejectedType : String := "rejected"

/-- One persisted feedback record (feedback_manager.py lines 85-95). -/
structure FeedbackRecord where
  timestamp : String
  raw_field : String
  suggested_match : String
  human_correction : Option String
  feedback_type : String
  confidence_score : Rat
  source_name : String
  session_id : String
deriving DecidableEq, Repr

/-- Embeds `feedback.get('human_correction') or feedback['suggested_match']`
(line 138): Python `or` falls back on None and on the empty string. -/
def contendVal (r : FeedbackRecord) : String :=
  match r.human_correction with
  | some s => if s = Chaos.emptyStr then r.suggested_match else s
  | none => r.suggested_match

/-- Line 136: only Approved and Corrected records are tallied. -/
def isContender (r : FeedbackRecord) : Bool :=
  r.feedback_type == approvedType || r.feedback_type == correctedType

/-- Values entered into the `corrections` tally for one field's feedback
list, in iteration order. -/
def contenderVals (recs : List FeedbackRecord) : List String :=
  (recs.filter isContender).map contendVal

/-- Keys of the `corrections` dict in insertion order: first occurrences
of the tallied values. -/
def firstOccsAux (seen : List String) : List String → List String
  | [] => []
  | x :: xs =>
    if x ∈ seen then firstOccsAux seen xs
    else x :: firstOccsAux (x :: seen) xs

def firstOccs (l : List String) : List String := firstOccsAux [] l

/-- Python `max(items, key=...)` scan: a later item replaces the current
best only on a strictly greater key, so the first maximum wins. -/
def pyMaxAux (key : String → Nat) (cur : String) : List String → String
  | [] => cur
  | x :: xs =>
    if key cur < key x then pyMaxAux key x xs else pyMaxAux key cur xs

def pyMax (key : String → Nat) : List String → Option String
  | [] => none
  | x :: xs => some (pyMaxAux key x xs)

/-- The group for `raw_field = f` built by the grouping loop (lines
122-127), preserving load order. -/
def fieldRecords (cache : List FeedbackRecord) (f : String) :
    List FeedbackRecord :=
  cache.filter (fun r => r.raw_field == f)

/-- Value of the `FeedbackManager.get_learned_mappings` dict (lines
106-149) at `raw_field = f`: tally contender values, take the Python max
by count, accept iff count / total field feedback reaches the agreement
ratio. -/
def learnedMappingFor (cache : List FeedbackRecord) (minAgree : Rat)
    (f : String) : Option String :=
  match pyMax (fun v => (contenderVals (fieldRecords cache f)).count v)
      (firstOccs (contenderVals (fieldRecords cache f))) with
  | none => none
  | some v =>
    if minAgree ≤ ((contenderVals (fieldRecords cache f)).count v : Rat) /
        ((fieldRecords cache f).length : Rat) then some v
    else none

lemma mem_firstOccsAux (a : String) :
    ∀ (l : List String) (seen : List String),
      a ∈ firstOccsAux seen l ↔ (a ∈ l ∧ a ∉ seen)
  | [], seen => by simp [firstOccsAux]
  | x :: xs, seen => by
    by_cases hx : x ∈ seen
    · rw [firstOccsAux, if_pos hx, mem_firstOccsAux a xs seen]
      constructor
      · rintro ⟨h1, h2⟩
        exact ⟨List.mem_cons_of_mem _ h1, h2⟩
      · rintro ⟨h1, h2⟩
        rcases List.mem_cons.mp h1 with h | h
        · exact absurd (h ▸ hx) h2
        · exact ⟨h, h2⟩
    · rw [firstOccsAux, if_neg hx]
      by_cases hax : a = x
      · simp [hax, hx]
      · rw [List.mem_cons]
        have := mem_firstOccsAux a xs (x :: seen)
        simp only [List.mem_cons] at this ⊢
        constructor
        · rintro (h | h)
          · exact absurd h hax
          · rcases (this.mp h) with ⟨h1, h2⟩
            push_neg at h2
            exact ⟨Or.inr h1, h2.2⟩
        · rintro ⟨h1, h2⟩
          rcases h1 with h | h
          · exact absurd h hax
          · refine Or.inr (this.mpr ⟨h, ?_⟩)
            push_neg
            exact ⟨hax, h2⟩

lemma mem_firstOccs (a : String) (l : List String) :
    a ∈ firstOccs l ↔ a ∈ l := by
  rw [firstOccs, mem_firstOccsAux]
  simp

lemma pyMaxAux_mem (key : String → Nat) :
    ∀ (xs : List String) (cur : String),
      pyMaxAux key cur xs = cur ∨ pyMaxAux key cur xs ∈ xs
  | [], cur => Or.inl rfl
  | x :: xs, cur => by
    by_cases hlt : key cur < key x
    · rw [pyMaxAux, if_pos hlt]
      rcases pyMaxAux_mem key xs x with h | h
      · exact Or.inr (by simp [h])
      · exact Or.inr (List.mem_cons_of_mem _ h)
    · rw [pyMaxAux, if_neg hlt]
      rcases pyMaxAux_mem key xs cur with h | h
      · exact Or.inl h
      · exact Or.inr (List.mem_cons_of_mem _ h)

lemma pyMaxAux_ge (key : String → Nat) :
    ∀ (xs : List String) (cur : String),
      key cur ≤ key (pyMaxAux key cur xs) ∧
      ∀ w ∈ xs, key w ≤ key (pyMaxAux key cur xs)
  | [], cur => ⟨le_refl _, by simp⟩
  | x :: xs, cur => by
    by_cases hlt : key cur < key x
    · rw [pyMaxAux, if_pos hlt]
      obtain ⟨h1, h2⟩ := pyMaxAux_ge key xs x
      refine ⟨le_trans (le_of_lt hlt) h1, ?_⟩
      intro w hw
      rcases List.mem_cons.mp hw with h | h
      · exact h ▸ h1
      · exact h2 w h
    · rw [pyMaxAux, if_neg hlt]
      obtain ⟨h1, h2⟩ := pyMaxAux_ge key xs cur
      refine ⟨h1, ?_⟩
      intro w hw
      rcases List.mem_cons.mp hw with h | h
      · exact h ▸ le_trans (Nat.le_of_not_lt hlt) h1
      · exact h2 w h

lemma pyMaxAux_strict (key : String → Nat) :
    ∀ (xs : List String) (cur v : String),
      (v = cur ∨ v ∈ xs) →
      (∀ w, (w = cur ∨ w ∈ xs) → w ≠ v → key w < key v) →
      pyMaxAux key cur xs = v
  | [], cur, v, hv, _ => by
    rw [pyMaxAux]
    rcases hv with h | h
    · exact h.symm
    · exact absurd h (by simp)
  | x :: xs, cur, v, hv, hdom => by
    by_cases hlt : key cur < key x
    · rw [pyMaxAux, if_pos hlt]
      apply pyMaxAux_strict key xs x v
      · rcases hv with h | h
        · by_cases hvx : v = x
          · exact Or.inl hvx
          · by_cases hvxs : v ∈ xs
            · exact Or.inr hvxs
            · exfalso
              have hxv : x ≠ v := fun hEq => hvx (hEq.symm)
              have := hdom x (Or.inr (List.mem_cons_self x xs)) hxv
              rw [h] at this
              omega
        · rcases List.mem_cons.mp h with h1 | h1
          · exact Or.inl h1
          · exact Or.inr h1
      · intro w hw hwv
        refine hdom w ?_ hwv
        rcases hw with h1 | h1
        · exact Or.inr (h1 ▸ List.mem_cons_self x xs)
        · exact Or.inr (List.mem_cons_of_mem _ h1)
    · rw [pyMaxAux, if_neg hlt]
      apply pyMaxAux_strict key xs cur v
      · rcases hv with h | h
        · exact Or.inl h
        · rcases List.mem_cons.mp h with h1 | h1
          · by_cases hvc : v = cur
            · exact Or.inl hvc
            · exfalso
              have hcv : cur ≠ v := fun hEq => hvc (hEq.symm)
              have := hdom cur (Or.inl rfl) hcv
              rw [h1] at this
              omega
          · exact Or.inr h1
      · intro w hw hwv
        refine hdom w ?_ hwv
        rcases hw with h1 | h1
        · exact Or.inl h1
        · exact Or.inr (List.mem_cons_of_mem _ h1)

lemma pyMax_mem (key : String → Nat) (l : List String) (v : String)
    (h : pyMax key l = some v) : v ∈ l := by
  match l, h with
  | x :: xs, h =>
    have hv := Option.some.inj h
    rcases pyMaxAux_mem key xs x with h1 | h1
    · rw [← hv, h1]
      exact List.mem_cons_self x xs
    · rw [← hv]
      exact List.mem_cons_of_mem _ h1

lemma pyMax_ge (key : String → Nat) (l : List String) (v : String)
    (h : pyMax key l = some v) : ∀ w ∈ l, key w ≤ key v := by
  match l, h with
  | x :: xs, h =>
    have hv := Option.some.inj h
    intro w hw
    obtain ⟨h1, h2⟩ := pyMaxAux_ge key xs x
    rcases List.mem_cons.mp hw with h3 | h3
    · rw [h3, ← hv]
      exact h1
    · rw [← hv]
      exact h2 w h3

lemma pyMax_eq_of_strict (key : String → Nat) (l : List String) (v : String)
    (hv : v ∈ l) (hdom : ∀ w ∈ l, w ≠ v → key w < key v) :
    pyMax key l = some v := by
  match l, hv with
  | x :: xs, hv =>
    rw [pyMax, Option.some.injEq]
    apply pyMaxAux_strict key xs x v
    · rcases List.mem_cons.mp hv with h | h
      · exact Or.inl h
      · exact Or.inr h
    · intro w hw hwv
      refine hdom w ?_ hwv
      rcases hw with h | h
      · exact h ▸ List.mem_cons_self x xs
      · exact List.mem_cons_of_mem _ h

def hrField : String := "hr_watch_01"

def hrValue : String := "Heart Rate (bpm)"

def pulseValue : String := "Pulse (bpm)"

def srcName : String := "smartwatch"

def sessionId : String := "s1"

def tsExample : String := "2026-01-01T00:00:00"

/-- One Approved record suggesting the heart-rate mapping. -/
def approvedRec : FeedbackRecord :=
  { timestamp := tsExample, raw_field := hrField,
    suggested_match := hrValue, human_correction := none,
    feedback_type := approvedType, confidence_score := 1,
    source_name := srcName, session_id := sessionId }

/-- One Corrected record whose human correction is the pulse mapping. -/
def correctedRec : FeedbackRecord :=
  { timestamp := tsExample, raw_field := hrField,
    suggested_match := hrValue, human_correction := some pulseValue,
    feedback_type := correctedType, confidence_score := 1,
    source_name := srcName, session_id := sessionId }

/-- The spec example: 8 Approved to "Heart Rate (bpm)", 2 Corrected to
"Pulse (bpm)". -/
def exampleCache : List FeedbackRecord :=
  List.replicate 8 approvedRec ++ List.replicate 2 correctedRec

/-- C6: the learned mapping for a field is `some v` only if `v` attains
the maximal tally among that field's Approved/Corrected values and its
count over the field's total feedback (Rejected included) reaches the
agreement ratio; a strictly most frequent value meeting the ratio is
always chosen; and the 8-Approved / 2-Corrected example at ratio 0.8
yields "Heart Rate (bpm)". -/
theorem learned_mapping_consensus :
    (∀ (cache : List FeedbackRecord) (minAgree : Rat) (f v : String),
       learnedMappingFor cache minAgree f = some v →
       (v ∈ contenderVals (fieldRecords cache f) ∧
        (∀ w ∈ contenderVals (fieldRecords cache f),
           (contenderVals (fieldRecords cache f)).count w ≤
             (contenderVals (fieldRecords cache f)).count v) ∧
        minAgree ≤ ((contenderVals (fieldRecords cache f)).count v : Rat) /
          ((fieldRecords cache f).length : Rat))) ∧
    (∀ (cache : List FeedbackRecord) (minAgree : Rat) (f v : String),
       v ∈ contenderVals (fieldRecords cache f) →
       (∀ w ∈ contenderVals (fieldRecords cache f), w ≠ v →
          (contenderVals (fieldRecords cache f)).count w <
            (contenderVals (fieldRecords cache f)).count v) →
       minAgree ≤ ((contenderVals (fieldRecords cache f)).count v : Rat) /
         ((fieldRecords cache f).length : Rat) →
       learnedMappingFor cache minAgree f = some v) ∧
    learnedMappingFor exampleCache (mkRat 4 5) hrField = some hrValue := by
  refine ⟨?_, ?_, ?_⟩
  · intro cache minAgree f v hres
    match hmax : pyMax
        (fun w => (contenderVals (fieldRecords cache f)).count w)
        (firstOccs (contenderVals (fieldRecords cache f))) with
    | none =>
      simp only [learnedMappingFor, hmax] at hres
      exact absurd hres (by simp)
    | some u =>
      simp only [learnedMappingFor, hmax] at hres
      by_cases hif : minAgree ≤
          ((contenderVals (fieldRecords cache f)).count u : Rat) /
            ((fieldRecords cache f).length : Rat)
      · rw [if_pos hif] at hres
        have huv : u = v := Option.some.inj hres
        subst huv
        refine ⟨?_, ?_, hif⟩
        · exact (mem_firstOccs u _).mp (pyMax_mem _ _ _ hmax)
        · intro w hw
          exact pyMax_ge _ _ _ hmax w ((mem_firstOccs w _).mpr hw)
      · rw [if_neg hif] at hres
        exact absurd hres (by simp)
  · intro cache minAgree f v hv hdom hratio
    have hmax : pyMax
        (fun w => (contenderVals (fieldRecords cache f)).count w)
        (firstOccs (contenderVals (fieldRecords cache f))) = some v := by
      apply pyMax_eq_of_strict
      · exact (mem_firstOccs v _).mpr hv
      · intro w hw hwv
        exact hdom w ((mem_firstOccs w _).mp hw) hwv
    simp only [learnedMappingFor, hmax]
    rw [if_pos hratio]
  · have hmax : pyMax
        (fun w => (contenderVals (fieldRecords exampleCache hrField)).count w)
        (firstOccs (contenderVals (fieldRecords exampleCache hrField))) =
        some hrValue := by decide
    have hcount :
        (contenderVals (fieldRecords exampleCache hrField)).count hrValue =
          8 := by decide
    have hlen : (fieldRecords exampleCache hrField).length = 10 := by decide
    have hcond : mkRat 4 5 ≤ ((8 : Nat) : Rat) / ((10 : Nat) : Rat) := by
      rw [Rat.mkRat_eq_div]
      norm_num
    simp only [learnedMappingFor, hmax, hcount, hlen]
    rw [if_pos hcond]

lemma exampleRatio :
    mkRat 4 5 ≤
      ((contenderVals (fieldRecords exampleCache hrField)).count hrValue :
        Rat) / ((fieldRecords exampleCache hrField).length : Rat) := by
  have hcount :
      (contenderVals (fieldRecords exampleCache hrField)).count hrValue =
        8 := by decide
  have hlen : (fieldRecords exampleCache hrField).length = 10 := by decide
  rw [hcount, hlen, Rat.mkRat_eq_div]
  norm_num

theorem learned_mapping_consensus_witness :
    (hrValue ∈ contenderVals (fieldRecords exampleCache hrField) ∧
     (∀ w ∈ contenderVals (fieldRecords exampleCache hrField),
        (contenderVals (fieldRecords exampleCache hrField)).count w ≤
          (contenderVals (fieldRecords exampleCache hrField)).count hrValue) ∧
     mkRat 4 5 ≤
       ((contenderVals (fieldRecords exampleCache hrField)).count hrValue :
         Rat) / ((fieldRecords exampleCache hrField).length : Rat)) ∧
    learnedMappingFor exampleCache (mkRat 4 5) hrField = some hrValue :=
  ⟨learned_mapping_consensus.1 exampleCache (mkRat 4 5) hrField hrValue
     learned_mapping_consensus.2.2,
   learned_mapping_consensus.2.1 exampleCache (mkRat 4 5) hrField hrValue
     (by decide) (by decide) exampleRatio⟩

end Feedback

namespace Loading

/-- Python `line.strip()`: drop leading and trailing whitespace. -/
def pyStrip (s : String) : String :=
  String.mk
    (((s.data.dropWhile Char.isWhitespace).reverse.dropWhile
      Char.isWhitespace).reverse)

/-- Embeds `FeedbackManager._load_feedback` (feedback_manager.py lines 46-52)
and only that loader: iterate the lines, skip lines whose strip is empty
(the `if line.strip():` guard), `json.loads` each remaining one and append
it to the cache. `json.loads` is the `parse` parameter; a `none` result
models the `json.JSONDecodeError` the source does not catch, so the whole
load becomes the error of the first failing line index. -/
def loadLinesAux {α : Type} (parse : String → Option α) :
    Nat → List String → Except Nat (List α)
  | _, [] => Except.ok []
  | i, line :: rest =>
    if pyStrip line = Chaos.emptyStr then loadLinesAux parse (i + 1) rest
    else
      match parse line with
      | none => Except.error i
      | some r =>
        match loadLinesAux parse (i + 1) rest with
        | Except.error j => Except.error j
        | Except.ok rs => Except.ok (r :: rs)

def loadFeedback {α : Type} (parse : String → Option α)
    (lines : List String) : Except Nat (List α) :=
  loadLinesAux parse 0 lines

/-- The records of the well-formed non-blank lines, in order. -/
def wellFormed {α : Type} (parse : String → Option α)
    (lines : List String) : List α :=
  lines.filterMap (fun l =>
    if pyStrip l = Chaos.emptyStr then none else parse l)

/-- Embeds the ledger read loop of `verify_chain_integrity`
(provenance.py lines 150-153): `json.loads(line)` on every line of the
file, with no blank-line guard, so any line `json.loads` cannot parse
(a blank line included) raises; the error carries the index of the first
failing line. -/
def readLedgerAux {α : Type} (parse : String → Option α) :
    Nat → List String → Except Nat (List α)
  | _, [] => Except.ok []
  | i, line :: rest =>
    match parse line with
    | none => Except.error i
    | some r =>
      match readLedgerAux parse (i + 1) rest with
      | Except.error j => Except.error j
      | Except.ok rs => Except.ok (r :: rs)

def readLedger {α : Type} (parse : String → Option α)
    (lines : List String) : Except Nat (List α) :=
  readLedgerAux parse 0 lines

lemma readLedgerAux_ok {α : Type} (parse : String → Option α) :
    ∀ (lines : List String) (i : Nat),
      (∀ line ∈ lines, (parse line).isSome) →
      readLedgerAux parse i lines = Except.ok (lines.filterMap parse)
  | [], _, _ => rfl
  | line :: rest, i, hall => by
    have hrest : ∀ l ∈ rest, (parse l).isSome :=
      fun l hl => hall l (List.mem_cons_of_mem _ hl)
    have hsome := hall line (List.mem_cons_self _ _)
    match hp : parse line with
    | none => rw [hp] at hsome; exact absurd hsome (by simp)
    | some r =>
      rw [readLedgerAux, hp, readLedgerAux_ok parse rest (i + 1) hrest]
      simp [hp]

lemma readLedgerAux_error {α : Type} (parse : String → Option α) :
    ∀ (lines : List String) (i : Nat),
      (∃ line ∈ lines, parse line = none) →
      ∃ j, readLedgerAux parse i lines = Except.error j
  | [], _, hex => absurd hex (by simp)
  | line :: rest, i, hex => by
    match hp : parse line with
    | none =>
      refine ⟨i, ?_⟩
      rw [readLedgerAux, hp]
    | some r =>
      obtain ⟨l, hl, hlp⟩ := hex
      rcases List.mem_cons.mp hl with h | h
      · rw [h, hp] at hlp
        exact absurd hlp (by simp)
      · obtain ⟨j, hj⟩ := readLedgerAux_error parse rest (i + 1) ⟨l, h, hlp⟩
        rw [readLedgerAux, hp, hj]
        exact ⟨j, rfl⟩

lemma loadLinesAux_ok {α : Type} (parse : String → Option α) :
    ∀ (lines : List String) (i : Nat),
      (∀ line ∈ lines, pyStrip line ≠ Chaos.emptyStr →
        (parse line).isSome) →
      loadLinesAux parse i lines = Except.ok (wellFormed parse lines)
  | [], _, _ => rfl
  | line :: rest, i, hall => by
    have hrest : ∀ l ∈ rest, pyStrip l ≠ Chaos.emptyStr → (parse l).isSome :=
      fun l hl => hall l (List.mem_cons_of_mem _ hl)
    by_cases hb : pyStrip line = Chaos.emptyStr
    · rw [loadLinesAux, if_pos hb, loadLinesAux_ok parse rest (i + 1) hrest]
      simp [wellFormed, hb]
    · have hsome := hall line (List.mem_cons_self _ _) hb
      match hp : parse line with
      | none => rw [hp] at hsome; exact absurd hsome (by simp)
      | some r =>
        rw [loadLinesAux, if_neg hb, hp,
          loadLinesAux_ok parse rest (i + 1) hrest]
        simp [wellFormed, hb, hp]

lemma loadLinesAux_error {α : Type} (parse : String → Option α) :
    ∀ (lines : List String) (i : Nat),
      (∃ line ∈ lines, pyStrip line ≠ Chaos.emptyStr ∧ parse line = none) →
      ∃ j, loadLinesAux parse i lines = Except.error j
  | [], _, hex => absurd hex (by simp)
  | line :: rest, i, hex => by
    by_cases hb : pyStrip line = Chaos.emptyStr
    · rw [loadLinesAux, if_pos hb]
      apply loadLinesAux_error parse rest (i + 1)
      obtain ⟨l, hl, hlt, hlp⟩ := hex
      rcases List.mem_cons.mp hl with h | h
      · exact absurd (h ▸ hb) hlt
      · exact ⟨l, h, hlt, hlp⟩
    · rw [loadLinesAux, if_neg hb]
      match hp : parse line with
      | none => exact ⟨i, rfl⟩
      | some r =>
        obtain ⟨l, hl, hlt, hlp⟩ := hex
        rcases List.mem_cons.mp hl with h | h
        · rw [h, hp] at hlp
          exact absurd hlp (by simp)
        · obtain ⟨j, hj⟩ :=
            loadLinesAux_error parse rest (i + 1) ⟨l, h, hlt, hlp⟩
          rw [hj]
          exact ⟨j, rfl⟩

/-- C8 (amended): the feedback load skips blank lines and returns the
records of all non-blank lines when each of them parses, while the ledger
read loop of verify_chain_integrity has no blank-line guard and feeds
every line to the parser; in either loader, a line the parser rejects
makes the whole load abort with the parse error — the offending line is
never skipped and the remaining lines are not loaded. -/
theorem malformed_line_aborts {α : Type} (parse : String → Option α)
    (lines : List String) :
    ((∀ line ∈ lines, pyStrip line ≠ Chaos.emptyStr → (parse line).isSome) →
      loadFeedback parse lines = Except.ok (wellFormed parse lines)) ∧
    ((∃ line ∈ lines, pyStrip line ≠ Chaos.emptyStr ∧ parse line = none) →
      ∃ j, loadFeedback parse lines = Except.error j) ∧
    ((∀ line ∈ lines, (parse line).isSome) →
      readLedger parse lines = Except.ok (lines.filterMap parse)) ∧
    ((∃ line ∈ lines, parse line = none) →
      ∃ j, readLedger parse lines = Except.error j) := by
  refine ⟨?_, ?_, ?_, ?_⟩
  · intro hall
    exact loadLinesAux_ok parse lines 0 hall
  · intro hex
    exact loadLinesAux_error parse lines 0 hex
  · intro hall
    exact readLedgerAux_ok parse lines 0 hall
  · intro hex
    exact readLedgerAux_error parse lines 0 hex

def goodLine1 : String := "good line one"

def badLine : String := "BAD"

def goodLine2 : String := "good line two"

/-- Toy parser standing in for `json.loads` in concrete runs: fails
exactly on the designated malformed line. -/
def toyParse (s : String) : Option String :=
  if s = badLine then none else some s

def cexLines : List String := [goodLine1, badLine, goodLine2]

def blankLine : String := ""

/-- Toy parser reflecting that `json.loads` also rejects a blank line. -/
def toyParseJson (s : String) : Option String :=
  if s = badLine ∨ s = blankLine then none else some s

def blankCex : List String := [goodLine1, blankLine, goodLine2]

/-- C8 counterexample: with one unparsable middle line, both the feedback
load and the ledger read abort with the error at index 1 instead of
returning the two well-formed records; and a blank middle line, which
`json.loads` rejects, is skipped by the feedback load but aborts the
ledger read. -/
theorem malformed_line_aborts_cex :
    loadFeedback toyParse cexLines = Except.error 1 ∧
    loadFeedback toyParse cexLines ≠
      Except.ok [goodLine1, goodLine2] ∧
    readLedger toyParse cexLines = Except.error 1 ∧
    loadFeedback toyParseJson blankCex =
      Except.ok [goodLine1, goodLine2] ∧
    readLedger toyParseJson blankCex = Except.error 1 := by
  have h1 : loadFeedback toyParse cexLines = Except.error 1 := rfl
  refine ⟨h1, ?_, rfl, rfl, rfl⟩
  rw [h1]
  intro h
  exact Except.noConfusion h

def goodLinesW : List String := [goodLine1, goodLine2]

theorem malformed_line_aborts_witness :
    ((∃ line ∈ cexLines, pyStrip line ≠ Chaos.emptyStr ∧
       toyParse line = none) ∧
     (∃ j, loadFeedback toyParse cexLines = Except.error j)) ∧
    ((∀ line ∈ goodLinesW, pyStrip line ≠ Chaos.emptyStr →
       (toyParse line).isSome) ∧
     loadFeedback toyParse goodLinesW =
       Except.ok (wellFormed toyParse goodLinesW)) ∧
    ((∀ line ∈ goodLinesW, (toyParse line).isSome) ∧
     readLedger toyParse goodLinesW =
       Except.ok (goodLinesW.filterMap toyParse)) ∧
    ((∃ line ∈ cexLines, toyParse line = none) ∧
     (∃ j, readLedger toyParse cexLines = Except.error j)) :=
  ⟨⟨⟨badLine, by decide, by decide, by decide⟩,
    (malformed_line_aborts toyParse cexLines).2.1
      ⟨badLine, by decide, by decide, by decide⟩⟩,
   ⟨by decide, (malformed_line_aborts toyParse goodLinesW).1 (by decide)⟩,
   ⟨by decide, (malformed_line_aborts toyParse goodLinesW).2.2.1 (by decide)⟩,
   ⟨⟨badLine, by decide, by decide⟩,
    (malformed_line_aborts toyParse cexLines).2.2.2
      ⟨badLine, by decide, by decide⟩⟩⟩

end Loading

end RapFramework
